import Mathlib

/-!
Verification of the `cnv_tools` library (copy-number profile preprocessing,
comparison and visualization) against its design on a shallow embedding.

Conventions of the embedding:
* polars `DataFrame` / `LazyFrame` values are modelled as record types holding
  an `isLazy : Bool` evaluation-kind flag plus the rows; all transformations are
  evaluated eagerly (a lazy frame whose plan would fail at `collect` is modelled
  as the failing result).
* machine floats (`Float32`/`Float64`) are modelled as `ℚ`; the float casts in
  the sources are value-level identities here.  64/32-bit integers are `ℤ`.
* fallible operations return `Except PErr _`, with `PErr` mirroring the error
  classes polars / Python raise (missing column, duplicate column, ValueError,
  TypeError, strict-replace error, IndexError).
* column renaming is modelled on the explicit column-name fields each frame
  carries; polars enforces unique column names, which theorem hypotheses state
  as `Nodup` where it matters.
-/

namespace CnvTools

/-- Errors raised by the modelled polars / Python operations. -/
inductive PErr where
  | columnNotFound : String → PErr
  | duplicateColumn : String → PErr
  | valueError : String → PErr
  | typeError : String → PErr
  | strictMapError : String → PErr
  | indexError : PErr
  deriving Repr, DecidableEq

instance {ε α : Type} [DecidableEq ε] [DecidableEq α] : DecidableEq (Except ε α) := fun a b =>
  match a, b with
  | .error e, .error e' =>
    if h : e = e' then isTrue (by rw [h]) else isFalse (fun hc => h (by cases hc; rfl))
  | .ok x, .ok y =>
    if h : x = y then isTrue (by rw [h]) else isFalse (fun hc => h (by cases hc; rfl))
  | .error _, .ok _ => isFalse (fun hc => Except.noConfusion hc)
  | .ok _, .error _ => isFalse (fun hc => Except.noConfusion hc)

/-- Character-list test: `p` begins the list `s` (model of `str.starts_with`). -/
def isPre (p s : List Char) : Bool :=
  match p, s with
  | [], _ => true
  | _ :: _, [] => false
  | a :: p', b :: s' => a = b && isPre p' s'

/-- String test modelling polars `Series.str.starts_with`. -/
def strStarts (s pre : String) : Bool := isPre pre.toList s.toList

/-- Replace the first (leftmost) occurrence of `pat` by `rep`, the behaviour of
polars `str.replace` for a literal pattern. -/
def replFirstAux (pat rep : List Char) : List Char → List Char
  | [] => []
  | c :: cs =>
    if isPre pat (c :: cs) then rep ++ (c :: cs).drop pat.length
    else c :: replFirstAux pat rep cs

/-- String version of `replFirstAux`: model of `str.replace(pat, rep)`. -/
def strReplFirst (s pat rep : String) : String :=
  String.mk (replFirstAux pat.toList rep.toList s.toList)

/-- Round to the nearest integer, ties to even: the rounding rule of the
underlying numeric engines (Python built-in `round`, polars `round(0)`).
Stated on the numerator of the fractional part: with `f = ⌊q⌋` and
`0 ≤ q - f < 1`, the fractional part is `(q.num - f * q.den) / q.den`, so
`q - f < 1/2 ↔ 2 * (q.num - f * q.den) < q.den`, and likewise for `>`. -/
def roundHalfEven (q : ℚ) : ℤ :=
  let f : ℤ := q.floor
  let numr : ℤ := q.num - f * (q.den : ℤ)
  if 2 * numr < (q.den : ℤ) then f
  else if (q.den : ℤ) < 2 * numr then f + 1
  else if f % 2 = 0 then f else f + 1

/-- Order-preserving distinct values (first occurrence kept): model of
`Series.unique` as far as the `.all()` reductions over it are concerned, and of
`group_by(..., maintain_order=True)` key order. -/
def firstUniques {α : Type} [DecidableEq α] (seen : List α) : List α → List α
  | [] => []
  | a :: l =>
    if a ∈ seen then firstUniques seen l else a :: firstUniques (a :: seen) l

/-- Arithmetic mean of a list (junk value `0` on the empty list, which every
use below guards against). -/
def listMeanQ (xs : List ℚ) : ℚ := xs.sum / (xs.length : ℚ)

/-! ### manhattan_plot.py: `integers_to_intervals` (source lines 116-145) -/

/-- Loop body of `integers_to_intervals`: `left`/`right` are the open interval
being built, the list argument is the remaining input. -/
def intervalsGo (left right : ℤ) : List ℤ → List (ℤ × ℤ)
  | [] => [(left, right)]
  | i :: rest =>
    if i - right > 1 then (left, right) :: intervalsGo i i rest
    else intervalsGo left i rest

/-- `integers_to_intervals` from `manhattan_plot.py`: compact an ascending
integer sequence into closed intervals. -/
def integers_to_intervals : List ℤ → List (ℤ × ℤ)
  | [] => []
  | x :: rest => intervalsGo x x rest

/-! ### manhattan_plot.py: `normal_chr_copy_number` (source lines 147-180) -/

/-- Ascending sort of rationals (polars sorts a series ascending before
quantile lookup). -/
def sortedAsc (xs : List ℚ) : List ℚ := List.insertionSort (· ≤ ·) xs

/-- Index used by polars `quantile(0.25, interpolation="lower")`:
`floor(0.25 * (n - 1))`. -/
def qIdxLower (n : ℕ) : ℕ := (n - 1) / 4

/-- Index used by polars `quantile(0.75, interpolation="higher")`:
`ceil(0.75 * (n - 1))`. -/
def qIdxHigher (n : ℕ) : ℕ := (3 * (n - 1) + 3) / 4

/-- polars `Series.quantile(0.25, interpolation="lower")`. -/
def quantileLower (xs : List ℚ) : ℚ := (sortedAsc xs).getD (qIdxLower xs.length) 0

/-- polars `Series.quantile(0.75, interpolation="higher")`. -/
def quantileHigher (xs : List ℚ) : ℚ := (sortedAsc xs).getD (qIdxHigher xs.length) 0

/-- `normal_chr_copy_number` from `manhattan_plot.py`: interquartile-trimmed
mean of the copy numbers, rounded, clamped by `min 2` then `max 0`. -/
def normal_chr_copy_number (cns : List ℚ) : ℤ :=
  let lo := quantileLower cns
  let hi := quantileHigher cns
  let kept := cns.filter (fun x => decide (lo ≤ x) && decide (x ≤ hi))
  max (min (roundHalfEven (listMeanQ kept)) 2) 0

/-! ### copy_number.py: canonical chromosome names and sort key -/

/-- `CopyNumber.CHROMOSOME_NAMES` (copy_number.py line 20). -/
def CHROMOSOME_NAMES : List String :=
  ["1", "2", "3", "4", "5", "6", "7", "8", "9", "10", "11", "12", "13", "14",
   "15", "16", "17", "18", "19", "20", "21", "22", "X", "Y"]

/-- Decimal value of a digit list (accumulator form). -/
def parseNatChars (acc : ℕ) : List Char → ℕ
  | [] => acc
  | c :: cs => parseNatChars (acc * 10 + (c.toNat - '0'.toNat)) cs

/-- String-to-integer cast for unsigned decimal strings, the only strings that
reach the `cast(pl.Int8)` of the sort key. -/
def strToIntSimple (s : String) : ℤ := (parseNatChars 0 s.toList : ℤ)

/-- Sort key used by both preprocess functions:
`pl.col("chr").replace({"X": "23", "Y": "24"}).cast(pl.Int8)`.  The cast is a
string parse; it is only ever applied after filtering to the canonical label
set, where it always succeeds on a plain decimal string. -/
def chrKey (c : String) : ℤ :=
  strToIntSimple (if c = "X" then "23" else if c = "Y" then "24" else c)

/-! ### copy_number.py: `copy_number_preprocess` (window mode, lines 40-163)

The input frame records the current name of each of the four relevant columns
together with the row values; `integer_copy_number` on the input is ignored
because the source unconditionally overwrites it. -/

/-- An input row for window-level copy-number preprocessing. -/
structure CnRow where
  chrom : String
  start : ℤ
  stop : ℤ
  cn : ℚ
  deriving Repr, DecidableEq

/-- An input frame for window-level copy-number preprocessing. -/
structure CnFrame where
  isLazy : Bool
  chrName : String
  startName : String
  endName : String
  cnName : String
  rows : List CnRow
  deriving Repr, DecidableEq

/-- The column names of a window-level input frame (polars keeps them unique). -/
def CnFrame.names (f : CnFrame) : List String :=
  [f.chrName, f.startName, f.endName, f.cnName]

/-- Model of `rename({old: new})`: fails when no column is named `old`; a
rename onto a name already used by a different column is a duplicate error. -/
def CnFrame.rename (f : CnFrame) (old new : String) : Except PErr CnFrame :=
  if old ∈ f.names then
    if old = new then .ok f
    else if new ∈ f.names then .error (.duplicateColumn new)
    else if f.chrName = old then .ok { f with chrName := new }
    else if f.startName = old then .ok { f with startName := new }
    else if f.endName = old then .ok { f with endName := new }
    else .ok { f with cnName := new }
  else .error (.columnNotFound old)

/-- Model of `with_columns(pl.col(col).str.replace(pat, ""))` on the chromosome
column: fails when no column is named `col`.  (When `col` names one of the
integer/float columns polars raises a schema error instead; that dead branch is
a type error here and unreachable in every theorem below.) -/
def CnFrame.stripChrVals (f : CnFrame) (col pat : String) : Except PErr CnFrame :=
  if f.chrName = col then
    .ok { f with rows := f.rows.map (fun r => { r with chrom := strReplFirst r.chrom pat "" }) }
  else if col ∈ f.names then .error (.typeError "str.replace on a non-string column")
  else .error (.columnNotFound col)

/-- The chromosome-normalisation stage of `copy_number_preprocess`
(copy_number.py lines 100-114): an `if` for the lowercase prefix followed by an
`if`/`else` for the capitalised prefix, each strip feeding a rename of
`chr_col` to `"chr"`.  The unique label list is computed before any rename. -/
def CnFrame.chrStage (f : CnFrame) (chr_col : String) : Except PErr CnFrame :=
  let uniq := firstUniques [] (f.rows.map (fun r => r.chrom))
  let step1 : Except PErr CnFrame :=
    if uniq.all (fun c => strStarts c "chr") then
      match f.stripChrVals chr_col "chr" with
      | .error e => .error e
      | .ok g => g.rename chr_col "chr"
    else .ok f
  match step1 with
  | .error e => .error e
  | .ok f1 =>
    if uniq.all (fun c => strStarts c "Chr") then
      match f1.stripChrVals chr_col "Chr" with
      | .error e => .error e
      | .ok g => g.rename chr_col "chr"
    else f1.rename chr_col "chr"

/-- The column-name part of `copy_number_preprocess` with both position columns
present (`start_col`/`end_col` not `None`): chromosome stage, then the renames
of the start, end and copy-number columns, duplicating the position column when
`end_col == start_col` (source lines 116-136). -/
def preprocessNamesWin (f : CnFrame) (chr_col start_col end_col cn_col : String) :
    Except PErr CnFrame :=
  match f.chrStage chr_col with
  | .error e => .error e
  | .ok f2 =>
    match f2.rename start_col "start" with
    | .error e => .error e
    | .ok f3 =>
      match
        (if end_col = start_col then
          Except.ok { f3 with
            endName := "end",
            rows := f3.rows.map (fun r => { r with stop := r.start }) }
        else f3.rename end_col "end") with
      | .error e => .error e
      | .ok f4 => f4.rename cn_col "copy_number"

/-- A canonical window-level output row. -/
structure WinRow where
  chrom : String
  start : ℤ
  stop : ℤ
  cn : ℚ
  icn : ℤ
  deriving Repr, DecidableEq

/-- A canonical window-level output table. -/
structure WinTable where
  isLazy : Bool
  rows : List WinRow
  deriving Repr, DecidableEq

/-- Row order of the canonical sort: ascending lexicographic on
(`chrKey chr`, `start`), the two sort expressions of the source. -/
def rowLe (a b : WinRow) : Prop :=
  chrKey a.chrom < chrKey b.chrom ∨ (chrKey a.chrom = chrKey b.chrom ∧ a.start ≤ b.start)

instance : DecidableRel rowLe := fun a b =>
  inferInstanceAs (Decidable (chrKey a.chrom < chrKey b.chrom ∨
    (chrKey a.chrom = chrKey b.chrom ∧ a.start ≤ b.start)))

instance : IsTotal WinRow rowLe := ⟨by intro a b; unfold rowLe; omega⟩

instance : IsTrans WinRow rowLe := ⟨by intro a b c; unfold rowLe; omega⟩

/-- The sort key of a canonical row, as a pair. -/
def winSortKey (r : WinRow) : ℤ × ℤ := (chrKey r.chrom, r.start)

/-- Strict version of the canonical row order. -/
def rowLt (a b : WinRow) : Prop :=
  chrKey a.chrom < chrKey b.chrom ∨ (chrKey a.chrom = chrKey b.chrom ∧ a.start < b.start)

instance : IsAntisymm WinRow rowLt :=
  ⟨fun a b h1 h2 => by
    exfalso
    unfold rowLt at h1 h2
    omega⟩

/-- Derivation of one canonical output row: attach `integer_copy_number` by
rounding the copy number (the `with_columns` of source lines 131-136). -/
def icnizeRow (r : CnRow) : WinRow :=
  { chrom := r.chrom, start := r.start, stop := r.stop, cn := r.cn,
    icn := roundHalfEven r.cn }

/-- The value part of `copy_number_preprocess` (source lines 131-156): derive
`integer_copy_number` by rounding, cast (identity here), filter to canonical
chromosomes, sort by (`chrKey`, `start`).  Both the filter and the row-local
derivation commute, so deriving before filtering is the source behaviour
exactly.  The sort is called without `maintain_order`, so polars only
guarantees a key-sorted permutation and leaves the relative order of rows
with equal keys unspecified; this function fixes one permissible outcome (the
stable one) so the pipeline stays a computable function, while the engine's
actual contract is the relation `winPreprocessRel` below, and any claim about
the order of tied rows is settled against that relation, not this choice. -/
def finalizeWin (lz : Bool) (rows : List CnRow) : WinTable :=
  { isLazy := lz,
    rows := List.insertionSort rowLe
      ((rows.map icnizeRow).filter
        (fun r => decide (r.chrom ∈ CHROMOSOME_NAMES))) }

/-- `CopyNumber.copy_number_preprocess` with `start_col`/`end_col` present:
the full pipeline.  The eager/lazy kind of the input is restored on the output
(source lines 158-163). -/
def copy_number_preprocess (f : CnFrame) (chr_col start_col end_col cn_col : String) :
    Except PErr WinTable :=
  match preprocessNamesWin f chr_col start_col end_col cn_col with
  | .error e => .error e
  | .ok g => .ok (finalizeWin f.isLazy g.rows)

/-- The polars contract of `copy_number_preprocess`: `sort` is called without
`maintain_order` (source lines 143-156), so the engine only promises that the
result is some permutation of the filtered rows that is sorted by the
(`chrKey`, `start`) key — the relative order of rows with equal keys is
unspecified.  `winPreprocessRel f ... t` states that `t` is a permissible
result of `copy_number_preprocess f ...`; the function above returns one such
result. -/
def winPreprocessRel (f : CnFrame) (chr_col start_col end_col cn_col : String)
    (t : WinTable) : Prop :=
  ∃ g, preprocessNamesWin f chr_col start_col end_col cn_col = .ok g ∧
    t.isLazy = f.isLazy ∧
    t.rows.Perm ((g.rows.map icnizeRow).filter
      (fun r => decide (r.chrom ∈ CHROMOSOME_NAMES))) ∧
    List.Sorted rowLe t.rows

/-- View a canonical table as a preprocessing input frame with the canonical
column names (the `integer_copy_number` column is ignored by preprocessing). -/
def WinTable.toFrame (t : WinTable) : CnFrame :=
  { isLazy := t.isLazy, chrName := "chr", startName := "start", endName := "end",
    cnName := "copy_number",
    rows := t.rows.map (fun r =>
      ({ chrom := r.chrom, start := r.start, stop := r.stop, cn := r.cn } : CnRow)) }

/-! ### copy_number.py: `copy_number_preprocess` in chromosome mode
(`start_col is None` / `end_col is None`) and `chromosome_copy_number` -/

/-- An input row for chromosome-level preprocessing (no position columns). -/
structure ChrRowIn where
  chrom : String
  cn : ℚ
  deriving Repr, DecidableEq

/-- An input frame for chromosome-level preprocessing. -/
structure ChrFrame where
  isLazy : Bool
  chrName : String
  cnName : String
  rows : List ChrRowIn
  deriving Repr, DecidableEq

/-- Column names of a chromosome-level input frame. -/
def ChrFrame.names (f : ChrFrame) : List String := [f.chrName, f.cnName]

/-- `rename({old: new})` on a chromosome-level frame. -/
def ChrFrame.rename (f : ChrFrame) (old new : String) : Except PErr ChrFrame :=
  if old ∈ f.names then
    if old = new then .ok f
    else if new ∈ f.names then .error (.duplicateColumn new)
    else if f.chrName = old then .ok { f with chrName := new }
    else .ok { f with cnName := new }
  else .error (.columnNotFound old)

/-- Chromosome-label strip on a chromosome-level frame. -/
def ChrFrame.stripChrVals (f : ChrFrame) (col pat : String) : Except PErr ChrFrame :=
  if f.chrName = col then
    .ok { f with rows := f.rows.map (fun r => { r with chrom := strReplFirst r.chrom pat "" }) }
  else if col ∈ f.names then .error (.typeError "str.replace on a non-string column")
  else .error (.columnNotFound col)

/-- Chromosome-normalisation stage, chromosome-level frame (same source lines
100-114). -/
def ChrFrame.chrStage (f : ChrFrame) (chr_col : String) : Except PErr ChrFrame :=
  let uniq := firstUniques [] (f.rows.map (fun r => r.chrom))
  let step1 : Except PErr ChrFrame :=
    if uniq.all (fun c => strStarts c "chr") then
      match f.stripChrVals chr_col "chr" with
      | .error e => .error e
      | .ok g => g.rename chr_col "chr"
    else .ok f
  match step1 with
  | .error e => .error e
  | .ok f1 =>
    if uniq.all (fun c => strStarts c "Chr") then
      match f1.stripChrVals chr_col "Chr" with
      | .error e => .error e
      | .ok g => g.rename chr_col "chr"
    else f1.rename chr_col "chr"

/-- A canonical chromosome-level row. -/
structure ChrRow where
  chrom : String
  cn : ℚ
  icn : ℤ
  deriving Repr, DecidableEq

/-- A canonical chromosome-level table. -/
structure ChrTable where
  isLazy : Bool
  rows : List ChrRow
  deriving Repr, DecidableEq

/-- `copy_number_preprocess` with `start_col=None` / `end_col=None`: the start
and end renames are skipped (source line 117), but the final sort
(source lines 143-155) unconditionally lists `pl.col("start")` as its second
sort expression.  A chromosome-level frame has columns
`chr`, `copy_number`, `integer_copy_number` only, so resolving `"start"`
fails with a missing-column error. -/
def copy_number_preprocess_nostart (f : ChrFrame) (chr_col cn_col : String) :
    Except PErr ChrTable :=
  match f.chrStage chr_col with
  | .error e => .error e
  | .ok f2 =>
    match f2.rename cn_col "copy_number" with
    | .error e => .error e
    | .ok _f3 =>
      if "start" ∈ (["chr", "copy_number", "integer_copy_number"] : List String) then
        .ok { isLazy := f.isLazy,
              rows := (f2.rows.map (fun r =>
                ({ chrom := r.chrom, cn := r.cn, icn := roundHalfEven r.cn } : ChrRow))).filter
                (fun r => decide (r.chrom ∈ CHROMOSOME_NAMES)) }
      else .error (.columnNotFound "start")

/-- `CopyNumber.chromosome_copy_number` (copy_number.py lines 165-195): group
the window rows by chromosome keeping first-appearance order, take the mean
copy number per group, re-derive the integer copy number by rounding it. -/
def chromosome_copy_number (t : WinTable) : ChrTable :=
  { isLazy := t.isLazy,
    rows := (firstUniques [] (t.rows.map (fun r => r.chrom))).map (fun c =>
      let m := listMeanQ ((t.rows.filter (fun r => decide (r.chrom = c))).map (fun r => r.cn))
      { chrom := c, cn := m, icn := roundHalfEven m }) }

/-! ### Region-consistency checks and N-way means
(copy_number_window.py lines 100-129 and 342-401,
copy_number_chromosome.py lines 89-100 and 219-278) -/

/-- The region key of a window-level row. -/
def winRegionKey (r : WinRow) : String × ℤ × ℤ := (r.chrom, r.start, r.stop)

/-- `CopyNumberWindow.region_consistency_check`: equality of the
(`chr`, `start`, `end`) column triples, row for row. -/
def window_region_consistency_check (x y : WinTable) : Bool :=
  decide (x.rows.map winRegionKey = y.rows.map winRegionKey)

/-- `CopyNumberChromosome.region_consistency_check`: equality of the `chr`
columns, row for row. -/
def chromosome_region_consistency_check (x y : ChrTable) : Bool :=
  decide (x.rows.map (fun r => r.chrom) = y.rows.map (fun r => r.chrom))

/-- Index of the first adjacent pair failing `ok`, the loop
`for i in range(len(xs) - 1)` of both `mean` implementations. -/
def firstBadPair {α : Type} (ok : α → α → Bool) : List α → Option ℕ
  | [] => none
  | [_] => none
  | a :: b :: rest =>
    if ok a b then (firstBadPair ok (b :: rest)).map (· + 1) else some 0

/-- Elementwise accumulation `acc + series/n` of the mean loops. -/
def meanSeries (n : ℚ) (first : List ℚ) (rest : List (List ℚ)) : List ℚ :=
  rest.foldl (fun acc c => List.zipWith (· + ·) acc (c.map (fun x => x / n)))
    (first.map (fun x => x / n))

/-- `CopyNumberWindow.mean`: sequential consistency check naming the offending
index pair, elementwise mean accumulation, then the `CopyNumberWindow`
constructor, i.e. `copy_number_preprocess` with canonical column names on an
eager frame (both source branches pass a materialised `DataFrame`; the junk
`copy_number_integer` column added on the lazy branch is dropped, being
untouched by preprocessing). -/
def window_mean (ts : List WinTable) : Except PErr WinTable :=
  match firstBadPair window_region_consistency_check ts with
  | some i =>
    .error (.valueError
      ("The regions of copy number data are inconsistent. The inconsistency occurred between index "
        ++ toString i ++ " and " ++ toString (i + 1) ++ "."))
  | none =>
    match ts with
    | [] => .error .indexError
    | t0 :: rest =>
      let n : ℚ := ((t0 :: rest).length : ℚ)
      let ms := meanSeries n (t0.rows.map (fun r => r.cn)) (rest.map (fun t => t.rows.map (fun r => r.cn)))
      let rows1 := List.zipWith
        (fun (r : WinRow) (m : ℚ) =>
          ({ chrom := r.chrom, start := r.start, stop := r.stop, cn := m } : CnRow))
        t0.rows ms
      copy_number_preprocess
        ⟨false, "chr", "start", "end", "copy_number", rows1⟩ "chr" "start" "end" "copy_number"

/-- `CopyNumberChromosome.mean`: sequential consistency check with a fixed
error message (no index pair named in the source), elementwise mean, then the
`CopyNumberChromosome` constructor, whose first step is
`copy_number_preprocess` with `start_col=None` on an eager frame. -/
def chromosome_mean (ts : List ChrTable) : Except PErr ChrTable :=
  match firstBadPair chromosome_region_consistency_check ts with
  | some _ => .error (.valueError "The regions of copy number data are inconsistent.")
  | none =>
    match ts with
    | [] => .error .indexError
    | t0 :: rest =>
      let n : ℚ := ((t0 :: rest).length : ℚ)
      let ms := meanSeries n (t0.rows.map (fun r => r.cn)) (rest.map (fun t => t.rows.map (fun r => r.cn)))
      let rows1 := List.zipWith
        (fun (r : ChrRow) (m : ℚ) => ({ chrom := r.chrom, cn := m } : ChrRowIn)) t0.rows ms
      match copy_number_preprocess_nostart ⟨false, "chr", "copy_number", rows1⟩ "chr" "copy_number" with
      | .error e => .error e
      | .ok d => .ok (chromosome_copy_number ⟨d.isLazy, d.rows.map (fun r =>
          ({ chrom := r.chrom, start := 0, stop := 0, cn := r.cn, icn := r.icn } : WinRow))⟩)

/-! ### copy_number_window.py: `difference_std` (lines 300-339) -/

/-- The differences `pred.copy_number - true.copy_number` over the inner join
of the two tables on (`chr`, `start`, `end`).  Polars materialises the join in
an unspecified row order; the standard deviation is permutation-invariant, so
the left-to-right order used here is equivalent. -/
def window_matched_diffs (t p : WinTable) : List ℚ :=
  t.rows.flatMap (fun a =>
    (p.rows.filter (fun b => decide (winRegionKey b = winRegionKey a))).map
      (fun b => b.cn - a.cn))

/-- Sample variance with `ddof = 1` (`Series.var`), `none` when fewer than two
observations, exactly when `Series.std` yields null. -/
def sampleVarQ (xs : List ℚ) : Option ℚ :=
  if xs.length ≤ 1 then none
  else some (((xs.map (fun x => (x - listMeanQ xs) ^ 2)).sum) / ((xs.length : ℚ) - 1))

/-- `CopyNumberWindow.difference_std` up to the final square root: the source
returns `float((pred - true).std())`, the square root of this sample variance.
The square root (a strictly monotone bijection of the nonnegatives) is omitted
to stay inside `ℚ`; definedness is unchanged: `Series.std` is null exactly
when the variance here is `none`, and `float(None)` raises a `TypeError`. -/
def window_difference_std_sq (t p : WinTable) : Except PErr ℚ :=
  match sampleVarQ (window_matched_diffs t p) with
  | none => .error (.typeError "float() argument must be a string or a real number, not NoneType")
  | some v => .ok v

/-! ### copy_number.py: `cnv_preprocess` (lines 197-306) -/

/-- A CNV row: chromosome, bounds and the CNV-type label string. -/
structure CnvRow where
  chrom : String
  start : ℤ
  stop : ℤ
  ctype : String
  deriving Repr, DecidableEq

/-- An input frame for CNV preprocessing. -/
structure CnvFrame where
  isLazy : Bool
  chrName : String
  startName : String
  endName : String
  typeName : String
  rows : List CnvRow
  deriving Repr, DecidableEq

/-- Column names of a CNV input frame. -/
def CnvFrame.names (f : CnvFrame) : List String :=
  [f.chrName, f.startName, f.endName, f.typeName]

/-- `rename({old: new})` on a CNV frame. -/
def CnvFrame.rename (f : CnvFrame) (old new : String) : Except PErr CnvFrame :=
  if old ∈ f.names then
    if old = new then .ok f
    else if new ∈ f.names then .error (.duplicateColumn new)
    else if f.chrName = old then .ok { f with chrName := new }
    else if f.startName = old then .ok { f with startName := new }
    else if f.endName = old then .ok { f with endName := new }
    else .ok { f with typeName := new }
  else .error (.columnNotFound old)

/-- Chromosome-label strip on a CNV frame. -/
def CnvFrame.stripChrVals (f : CnvFrame) (col pat : String) : Except PErr CnvFrame :=
  if f.chrName = col then
    .ok { f with rows := f.rows.map (fun r => { r with chrom := strReplFirst r.chrom pat "" }) }
  else if col ∈ f.names then .error (.typeError "str.replace on a non-string column")
  else .error (.columnNotFound col)

/-- Chromosome-normalisation stage of `cnv_preprocess` (source lines 250-264,
identical structure to lines 100-114). -/
def CnvFrame.chrStage (f : CnvFrame) (chr_col : String) : Except PErr CnvFrame :=
  let uniq := firstUniques [] (f.rows.map (fun r => r.chrom))
  let step1 : Except PErr CnvFrame :=
    if uniq.all (fun c => strStarts c "chr") then
      match f.stripChrVals chr_col "chr" with
      | .error e => .error e
      | .ok g => g.rename chr_col "chr"
    else .ok f
  match step1 with
  | .error e => .error e
  | .ok f1 =>
    if uniq.all (fun c => strStarts c "Chr") then
      match f1.stripChrVals chr_col "Chr" with
      | .error e => .error e
      | .ok g => g.rename chr_col "chr"
    else f1.rename chr_col "chr"

/-- `replace_strict({gain_value: "gain", loss_value: "loss"})` on one value.
When `gain_value = loss_value` the Python dict literal keeps the later entry,
so the value maps to `"loss"`; any unlisted value raises. -/
def mapCnvType (gain_value loss_value v : String) : Except PErr String :=
  if v = loss_value then .ok "loss"
  else if v = gain_value then .ok "gain"
  else .error (.strictMapError v)

/-- Column-name part of `cnv_preprocess`: chromosome stage, start/end renames
(with the duplication when `end_col == start_col`), CNV-type rename. -/
def preprocessNamesCnv (f : CnvFrame) (chr_col start_col end_col cnv_type_col : String) :
    Except PErr CnvFrame :=
  match f.chrStage chr_col with
  | .error e => .error e
  | .ok f2 =>
    match f2.rename start_col "start" with
    | .error e => .error e
    | .ok f3 =>
      match
        (if end_col = start_col then
          Except.ok { f3 with
            endName := "end",
            rows := f3.rows.map (fun r => { r with stop := r.start }) }
        else f3.rename end_col "end") with
      | .error e => .error e
      | .ok f4 => f4.rename cnv_type_col "cnv_type"

/-- Row order of the canonical CNV sort (same key as the copy-number sort). -/
def cnvRowLe (a b : CnvRow) : Prop :=
  chrKey a.chrom < chrKey b.chrom ∨ (chrKey a.chrom = chrKey b.chrom ∧ a.start ≤ b.start)

instance : DecidableRel cnvRowLe := fun a b =>
  inferInstanceAs (Decidable (chrKey a.chrom < chrKey b.chrom ∨
    (chrKey a.chrom = chrKey b.chrom ∧ a.start ≤ b.start)))

instance : IsTotal CnvRow cnvRowLe := ⟨by intro a b; unfold cnvRowLe; omega⟩

instance : IsTrans CnvRow cnvRowLe := ⟨by intro a b c; unfold cnvRowLe; omega⟩

/-- A canonical CNV output table. -/
structure CnvTable where
  isLazy : Bool
  rows : List CnvRow
  deriving Repr, DecidableEq

/-- Value part of `cnv_preprocess`: cast (identity here), filter to canonical
chromosomes, sort by (`chrKey`, `start`). -/
def finalizeCnv (lz : Bool) (rows : List CnvRow) : CnvTable :=
  { isLazy := lz,
    rows := List.insertionSort cnvRowLe
      (rows.filter (fun r => decide (r.chrom ∈ CHROMOSOME_NAMES))) }

/-- `CopyNumber.cnv_preprocess`: the full pipeline. -/
def cnv_preprocess (f : CnvFrame)
    (chr_col start_col end_col cnv_type_col gain_value loss_value : String) :
    Except PErr CnvTable :=
  match preprocessNamesCnv f chr_col start_col end_col cnv_type_col with
  | .error e => .error e
  | .ok g =>
    match g.rows.mapM (fun r => do
        let tv ← mapCnvType gain_value loss_value r.ctype
        pure { r with ctype := tv }) with
    | .error e => .error e
    | .ok rows => .ok (finalizeCnv f.isLazy rows)

/-! ## Theorems -/

/-! ### C1: interval compaction -/

/-- Membership of an integer in one of a list of closed intervals. -/
def covered (ivs : List (ℤ × ℤ)) (n : ℤ) : Prop := ∃ p ∈ ivs, p.1 ≤ n ∧ n ≤ p.2

theorem covered_cons {p : ℤ × ℤ} {ivs : List (ℤ × ℤ)} {n : ℤ} :
    covered (p :: ivs) n ↔ (p.1 ≤ n ∧ n ≤ p.2) ∨ covered ivs n := by
  simp [covered]

theorem intervalsGo_cover (rest : List ℤ) : ∀ left right : ℤ, left ≤ right →
    List.Chain' (· ≤ ·) (right :: rest) →
    ∀ n, covered (intervalsGo left right rest) n ↔ ((left ≤ n ∧ n ≤ right) ∨ n ∈ rest) := by
  induction rest with
  | nil =>
    intro left right _ _ n
    simp [intervalsGo, covered]
  | cons i rest ih =>
    intro left right hlr hch n
    have hri : right ≤ i := (List.chain'_cons.mp hch).1
    have hch' : List.Chain' (· ≤ ·) (i :: rest) := (List.chain'_cons.mp hch).2
    by_cases hgap : i - right > 1
    · rw [intervalsGo, if_pos hgap, covered_cons, ih i i le_rfl hch' n]
      have hii : (i ≤ n ∧ n ≤ i) ↔ n = i := by omega
      rw [hii, List.mem_cons]
    · rw [intervalsGo, if_neg hgap, ih left i (le_trans hlr hri) hch' n, List.mem_cons]
      constructor
      · rintro (⟨h1, h2⟩ | hp)
        · by_cases hnr : n ≤ right
          · exact Or.inl ⟨h1, hnr⟩
          · exact Or.inr (Or.inl (by omega))
        · exact Or.inr (Or.inr hp)
      · rintro (⟨h1, h2⟩ | h | hp)
        · exact Or.inl ⟨h1, le_trans h2 hri⟩
        · exact Or.inl ⟨by omega, by omega⟩
        · exact Or.inr hp

theorem intervalsGo_head (rest : List ℤ) : ∀ left right : ℤ,
    ∃ r' tail, intervalsGo left right rest = (left, r') :: tail := by
  induction rest with
  | nil => intro left right; exact ⟨right, [], rfl⟩
  | cons i rest ih =>
    intro left right
    by_cases hgap : i - right > 1
    · exact ⟨right, intervalsGo i i rest, by rw [intervalsGo, if_pos hgap]⟩
    · obtain ⟨r', tail, heq⟩ := ih left i
      exact ⟨r', tail, by rw [intervalsGo, if_neg hgap, heq]⟩

theorem intervalsGo_gapped (rest : List ℤ) : ∀ left right : ℤ, left ≤ right →
    List.Chain' (· ≤ ·) (right :: rest) →
    List.Chain' (fun p q : ℤ × ℤ => p.2 + 1 < q.1) (intervalsGo left right rest) ∧
    ∀ p ∈ intervalsGo left right rest, p.1 ≤ p.2 := by
  induction rest with
  | nil =>
    intro left right hlr _
    refine ⟨by simp [intervalsGo], ?_⟩
    intro p hp
    simp only [intervalsGo, List.mem_singleton] at hp
    subst hp
    exact hlr
  | cons i rest ih =>
    intro left right hlr hch
    have hri : right ≤ i := (List.chain'_cons.mp hch).1
    have hch' : List.Chain' (· ≤ ·) (i :: rest) := (List.chain'_cons.mp hch).2
    by_cases hgap : i - right > 1
    · rw [intervalsGo, if_pos hgap]
      obtain ⟨hchain, hbnd⟩ := ih i i le_rfl hch'
      obtain ⟨r', tail, heq⟩ := intervalsGo_head rest i i
      refine ⟨List.chain'_cons'.mpr ⟨?_, hchain⟩, ?_⟩
      · intro b hb
        rw [heq] at hb
        simp only [List.head?_cons, Option.mem_def, Option.some.injEq] at hb
        subst hb
        simpa using by omega
      · intro p hp
        rcases List.mem_cons.mp hp with h | h
        · subst h; exact hlr
        · exact hbnd p h
    · rw [intervalsGo, if_neg hgap]
      exact ih left i (le_trans hlr hri) hch'

/-- C1: for every ascending integer sequence, `integers_to_intervals` returns
closed intervals covering exactly the elements of the sequence, pairwise
separated by gaps of at least two (hence maximal contiguous runs), each
well-formed; `[1,2,3,5,6,9]` yields `[[1,3],[5,6],[9,9]]` and `[]` yields
`[]`. -/
theorem claim_C1 :
    (∀ l : List ℤ, List.Chain' (· ≤ ·) l →
      ((∀ n : ℤ, covered (integers_to_intervals l) n ↔ n ∈ l) ∧
       List.Chain' (fun p q : ℤ × ℤ => p.2 + 1 < q.1) (integers_to_intervals l) ∧
       ∀ p ∈ integers_to_intervals l, p.1 ≤ p.2)) ∧
    integers_to_intervals [1, 2, 3, 5, 6, 9] = [(1, 3), (5, 6), (9, 9)] ∧
    integers_to_intervals [] = [] := by
  refine ⟨?_, by decide, rfl⟩
  intro l hch
  match l with
  | [] =>
    refine ⟨?_, by simp [integers_to_intervals], by simp [integers_to_intervals]⟩
    intro n
    simp [integers_to_intervals, covered]
  | x :: rest =>
    obtain ⟨hchain, hbnd⟩ := intervalsGo_gapped rest x x le_rfl hch
    refine ⟨?_, hchain, hbnd⟩
    intro n
    rw [show integers_to_intervals (x :: rest) = intervalsGo x x rest from rfl,
      intervalsGo_cover rest x x le_rfl hch n, List.mem_cons]
    constructor
    · rintro (⟨h1, h2⟩ | hp)
      · exact Or.inl (by omega)
      · exact Or.inr hp
    · rintro (h | hp)
      · exact Or.inl ⟨by omega, by omega⟩
      · exact Or.inr hp

/-- Witness for C1 at the ascending input `[2, 3]`. -/
theorem claim_C1_witness : covered (integers_to_intervals [2, 3]) 3 :=
  ((claim_C1.1 [2, 3] (List.chain'_pair.mpr (by decide))).1 3).mpr (by decide)

/-! ### C2: the baseline classifier -/

theorem keep_eq_not_discard (lo hi x : ℚ) :
    (decide (lo ≤ x) && decide (x ≤ hi)) = !(decide (x < lo) || decide (hi < x)) := by
  by_cases h1 : lo ≤ x <;> by_cases h2 : x ≤ hi <;> simp [h1, h2, not_le.mp, not_le]

/-- C2: for nonempty input, the trimmed set (discarding values strictly below
the lower quantile with "lower" interpolation or strictly above the upper
quantile with "higher" interpolation) is nonempty, `normal_chr_copy_number`
is the rounding of its mean clamped by `min 2` and `max 0`, and the result is
always 0, 1 or 2. -/
theorem claim_C2 (cns : List ℚ) (h : cns ≠ []) :
    cns.filter (fun x => !(decide (x < quantileLower cns) || decide (quantileHigher cns < x))) ≠ [] ∧
    normal_chr_copy_number cns =
      max (min (roundHalfEven (listMeanQ (cns.filter
        (fun x => !(decide (x < quantileLower cns) || decide (quantileHigher cns < x)))))) 2) 0 ∧
    (normal_chr_copy_number cns = 0 ∨ normal_chr_copy_number cns = 1 ∨
      normal_chr_copy_number cns = 2) := by
  have hPerm := List.perm_insertionSort (fun a b : ℚ => a ≤ b) cns
  have hlen : (sortedAsc cns).length = cns.length := hPerm.length_eq
  have hn : 0 < cns.length := List.length_pos.mpr h
  have hiH : qIdxHigher cns.length < cns.length := by unfold qIdxHigher; omega
  have hiLH : qIdxLower cns.length ≤ qIdxHigher cns.length := by
    unfold qIdxLower qIdxHigher; omega
  have hiL : qIdxLower cns.length < cns.length := lt_of_le_of_lt hiLH hiH
  have hSorted : (sortedAsc cns).Sorted (· ≤ ·) := List.sorted_insertionSort _ cns
  have hloE : quantileLower cns = (sortedAsc cns).get ⟨qIdxLower cns.length, by omega⟩ := by
    unfold quantileLower
    rw [List.getD_eq_getElem (sortedAsc cns) 0 (by omega)]
    rfl
  have hhiE : quantileHigher cns = (sortedAsc cns).get ⟨qIdxHigher cns.length, by omega⟩ := by
    unfold quantileHigher
    rw [List.getD_eq_getElem (sortedAsc cns) 0 (by omega)]
    rfl
  have hlohi : quantileLower cns ≤ quantileHigher cns := by
    rw [hloE, hhiE]
    exact hSorted.rel_get_of_le (by simpa using hiLH)
  have hloMem : quantileLower cns ∈ cns := by
    rw [hloE]
    exact hPerm.subset (List.get_mem _ _ _)
  have hfilterEq : cns.filter (fun x => decide (quantileLower cns ≤ x) &&
      decide (x ≤ quantileHigher cns)) =
      cns.filter (fun x => !(decide (x < quantileLower cns) ||
        decide (quantileHigher cns < x))) :=
    List.filter_congr (fun x _ => keep_eq_not_discard _ _ x)
  have hkept : quantileLower cns ∈ cns.filter (fun x => decide (quantileLower cns ≤ x) &&
      decide (x ≤ quantileHigher cns)) := by
    rw [List.mem_filter]
    exact ⟨hloMem, by simp [hlohi]⟩
  have hne : cns.filter (fun x => !(decide (x < quantileLower cns) ||
      decide (quantileHigher cns < x))) ≠ [] := by
    rw [← hfilterEq]
    exact List.ne_nil_of_mem hkept
  have hval : normal_chr_copy_number cns =
      max (min (roundHalfEven (listMeanQ (cns.filter
        (fun x => !(decide (x < quantileLower cns) || decide (quantileHigher cns < x)))))) 2) 0 := by
    simp only [normal_chr_copy_number]
    rw [hfilterEq]
  refine ⟨hne, hval, ?_⟩
  rw [hval]
  have h2 : min (roundHalfEven (listMeanQ (cns.filter
      (fun x => !(decide (x < quantileLower cns) || decide (quantileHigher cns < x)))))) 2 ≤ 2 :=
    min_le_right _ _
  have h0 : (0 : ℤ) ≤ max (min (roundHalfEven (listMeanQ (cns.filter
      (fun x => !(decide (x < quantileLower cns) || decide (quantileHigher cns < x)))))) 2) 0 :=
    le_max_right _ _
  have h2' : max (min (roundHalfEven (listMeanQ (cns.filter
      (fun x => !(decide (x < quantileLower cns) || decide (quantileHigher cns < x)))))) 2) 0 ≤ 2 :=
    max_le h2 (by norm_num)
  omega

/-- Witness for C2 at the nonempty input `[1, 2, 3]`. -/
theorem claim_C2_witness :
    ([1, 2, 3] : List ℚ).filter (fun x => !(decide (x < quantileLower [1, 2, 3]) ||
      decide (quantileHigher [1, 2, 3] < x))) ≠ [] ∧
    (normal_chr_copy_number [1, 2, 3] = 0 ∨ normal_chr_copy_number [1, 2, 3] = 1 ∨
      normal_chr_copy_number [1, 2, 3] = 2) := by
  have h := claim_C2 [1, 2, 3] (by decide)
  exact ⟨h.1, h.2.2⟩

/-! ### Shared invariants of the preprocessing pipelines -/

theorem copy_number_preprocess_ok {f : CnFrame} {chr_col start_col end_col cn_col : String}
    {t : WinTable} (h : copy_number_preprocess f chr_col start_col end_col cn_col = .ok t) :
    ∃ g, preprocessNamesWin f chr_col start_col end_col cn_col = .ok g ∧
      t = finalizeWin f.isLazy g.rows := by
  unfold copy_number_preprocess at h
  cases hg : preprocessNamesWin f chr_col start_col end_col cn_col with
  | error e => rw [hg] at h; exact absurd h (by simp)
  | ok g =>
    rw [hg] at h
    exact ⟨g, rfl, (Except.ok.injEq _ _).mp h.symm⟩

theorem finalizeWin_chrom_mem (lz : Bool) (rows : List CnRow) :
    ∀ r ∈ (finalizeWin lz rows).rows, r.chrom ∈ CHROMOSOME_NAMES := by
  intro r hr
  unfold finalizeWin at hr
  simp only at hr
  rw [List.mem_insertionSort] at hr
  exact of_decide_eq_true (List.mem_filter.mp hr).2

theorem finalizeWin_sorted (lz : Bool) (rows : List CnRow) :
    List.Sorted rowLe (finalizeWin lz rows).rows :=
  List.sorted_insertionSort rowLe _

theorem finalizeWin_icn (lz : Bool) (rows : List CnRow) :
    ∀ r ∈ (finalizeWin lz rows).rows, r.icn = roundHalfEven r.cn := by
  intro r hr
  unfold finalizeWin at hr
  simp only at hr
  rw [List.mem_insertionSort] at hr
  obtain ⟨a, _, ha⟩ := List.mem_map.mp (List.mem_filter.mp hr).1
  rw [← ha]
  rfl

theorem cnv_preprocess_ok {f : CnvFrame}
    {chr_col start_col end_col cnv_type_col gain_value loss_value : String}
    {t : CnvTable}
    (h : cnv_preprocess f chr_col start_col end_col cnv_type_col gain_value loss_value = .ok t) :
    ∃ rows, t = finalizeCnv f.isLazy rows := by
  unfold cnv_preprocess at h
  cases hg : preprocessNamesCnv f chr_col start_col end_col cnv_type_col with
  | error e => rw [hg] at h; exact absurd h (by simp)
  | ok g =>
    rw [hg] at h
    dsimp only at h
    cases hm : g.rows.mapM (fun r => do
        let tv ← mapCnvType gain_value loss_value r.ctype
        pure { r with ctype := tv }) with
    | error e => rw [hm] at h; exact absurd h (by simp)
    | ok rows =>
      rw [hm] at h
      exact ⟨rows, (Except.ok.injEq _ _).mp h.symm⟩

theorem finalizeCnv_chrom_mem (lz : Bool) (rows : List CnvRow) :
    ∀ r ∈ (finalizeCnv lz rows).rows, r.chrom ∈ CHROMOSOME_NAMES := by
  intro r hr
  unfold finalizeCnv at hr
  simp only at hr
  rw [List.mem_insertionSort] at hr
  exact of_decide_eq_true (List.mem_filter.mp hr).2

theorem finalizeCnv_sorted (lz : Bool) (rows : List CnvRow) :
    List.Sorted cnvRowLe (finalizeCnv lz rows).rows :=
  List.sorted_insertionSort cnvRowLe _

/-! ### C4: chromosome filter and sort invariant of the normalised outputs -/

/-- C4: every successful output of `copy_number_preprocess` or
`cnv_preprocess` carries only the 24 canonical chromosome labels, adjacent
rows are non-decreasing in the lexicographic key (rank, start), and the rank
underlying the sort key maps the canonical labels to 1..24 in order. -/
theorem claim_C4 :
    (∀ (f : CnFrame) (c s e n : String) (t : WinTable),
      copy_number_preprocess f c s e n = .ok t →
      (∀ r ∈ t.rows, r.chrom ∈ CHROMOSOME_NAMES) ∧
      List.Chain' (fun a b : WinRow => chrKey a.chrom < chrKey b.chrom ∨
        (chrKey a.chrom = chrKey b.chrom ∧ a.start ≤ b.start)) t.rows) ∧
    (∀ (f : CnvFrame) (c s e n gv lv : String) (t : CnvTable),
      cnv_preprocess f c s e n gv lv = .ok t →
      (∀ r ∈ t.rows, r.chrom ∈ CHROMOSOME_NAMES) ∧
      List.Chain' (fun a b : CnvRow => chrKey a.chrom < chrKey b.chrom ∨
        (chrKey a.chrom = chrKey b.chrom ∧ a.start ≤ b.start)) t.rows) ∧
    CHROMOSOME_NAMES.map chrKey =
      [1, 2, 3, 4, 5, 6, 7, 8, 9, 10, 11, 12, 13, 14, 15, 16, 17, 18, 19, 20, 21, 22, 23, 24] := by
  refine ⟨?_, ?_, by decide⟩
  · intro f c s e n t h
    obtain ⟨g, _, rfl⟩ := copy_number_preprocess_ok h
    exact ⟨finalizeWin_chrom_mem _ _, (finalizeWin_sorted _ _).chain'⟩
  · intro f c s e n gv lv t h
    obtain ⟨rows, rfl⟩ := cnv_preprocess_ok h
    exact ⟨finalizeCnv_chrom_mem _ _, (finalizeCnv_sorted _ _).chain'⟩

/-- Witness for C4, instantiating both preprocess pipelines on concrete
frames whose inputs contain a non-canonical `"MT"` row. -/
theorem claim_C4_witness :
    (∀ r ∈ (⟨false, [⟨"2", 5, 9, 2, 2⟩, ⟨"X", 1, 4, 1, 1⟩]⟩ : WinTable).rows,
      r.chrom ∈ CHROMOSOME_NAMES) ∧
    (∀ r ∈ (⟨false, [⟨"2", 5, 9, "gain"⟩]⟩ : CnvTable).rows, r.chrom ∈ CHROMOSOME_NAMES) := by
  refine ⟨(claim_C4.1 ⟨false, "chr", "start", "end", "copy_number",
    [⟨"X", 1, 4, 1⟩, ⟨"MT", 2, 3, 2⟩, ⟨"2", 5, 9, 2⟩]⟩ "chr" "start" "end" "copy_number" _ ?_).1,
    (claim_C4.2.1 ⟨false, "chr", "start", "end", "cnv_type",
      [⟨"MT", 2, 3, "dup"⟩, ⟨"2", 5, 9, "dup"⟩]⟩ "chr" "start" "end" "cnv_type" "dup" "del" _ ?_).1⟩
  · decide
  · decide

/-! ### C3: idempotence of copy-number normalisation -/

theorem no_chr_pre : ∀ c ∈ CHROMOSOME_NAMES, strStarts c "chr" = false := by decide

theorem no_Chr_pre : ∀ c ∈ CHROMOSOME_NAMES, strStarts c "Chr" = false := by decide

theorem uniq_all_no_pre {l : List String} (hne : l ≠ [])
    (hcanon : ∀ c ∈ l, c ∈ CHROMOSOME_NAMES) {pat : String}
    (hpat : ∀ c ∈ CHROMOSOME_NAMES, strStarts c pat = false) :
    (firstUniques [] l).all (fun c => strStarts c pat) = false := by
  match l with
  | [] => exact absurd rfl hne
  | a :: l' =>
    have : firstUniques [] (a :: l') = a :: firstUniques [a] l' := by
      rw [show firstUniques ([] : List String) (a :: l') =
        (if a ∈ ([] : List String) then firstUniques [] l'
          else a :: firstUniques [a] l') from rfl,
        if_neg (List.not_mem_nil a)]
    rw [this, List.all_cons, hpat a (hcanon a (List.mem_cons_self a l')), Bool.false_and]

theorem rename_id (f : CnFrame) (c : String) (hc : c ∈ f.names) : f.rename c c = .ok f := by
  unfold CnFrame.rename
  rw [if_pos hc, if_pos rfl]

theorem chrStage_canonical (f : CnFrame) (hchr : f.chrName = "chr")
    (hcanon : ∀ r ∈ f.rows, r.chrom ∈ CHROMOSOME_NAMES) :
    f.chrStage "chr" = .ok f := by
  obtain ⟨lz, cname, sname, ename, nname, rows⟩ := f
  dsimp only at hchr hcanon
  subst hchr
  have hmemchr : "chr" ∈ CnFrame.names ⟨lz, "chr", sname, ename, nname, rows⟩ :=
    List.mem_cons_self _ _
  cases rows with
  | nil =>
    have hstrip : ∀ pat,
        CnFrame.stripChrVals ⟨lz, "chr", sname, ename, nname, []⟩ "chr" pat =
          .ok ⟨lz, "chr", sname, ename, nname, []⟩ := by
      intro pat
      unfold CnFrame.stripChrVals
      rw [if_pos rfl]
      rfl
    have hren : CnFrame.rename ⟨lz, "chr", sname, ename, nname, ([] : List CnRow)⟩ "chr" "chr" =
        .ok ⟨lz, "chr", sname, ename, nname, []⟩ := rename_id _ "chr" hmemchr
    have hfu : firstUniques ([] : List String) ([] : List String) = [] := rfl
    unfold CnFrame.chrStage
    simp [hfu, hstrip, hren]
  | cons r0 rs =>
    have hcanon' : ∀ c ∈ (r0 :: rs).map (fun r => r.chrom), c ∈ CHROMOSOME_NAMES := by
      intro c hc
      obtain ⟨r, hr, rfl⟩ := List.mem_map.mp hc
      exact hcanon r hr
    have hne : (r0 :: rs).map (fun r => r.chrom) ≠ [] := by simp
    have h1 : (firstUniques [] ((r0 :: rs).map (fun r => r.chrom))).all
        (fun c => strStarts c "chr") = false := uniq_all_no_pre hne hcanon' no_chr_pre
    have h2 : (firstUniques [] ((r0 :: rs).map (fun r => r.chrom))).all
        (fun c => strStarts c "Chr") = false := uniq_all_no_pre hne hcanon' no_Chr_pre
    unfold CnFrame.chrStage
    dsimp only
    rw [h1, h2]
    simp only [Bool.false_eq_true, if_false]
    rw [rename_id _ "chr" hmemchr]

theorem copy_number_preprocess_sound (f : CnFrame) (a b c d : String) (t : WinTable)
    (h : copy_number_preprocess f a b c d = .ok t) : winPreprocessRel f a b c d t := by
  obtain ⟨g, hg, rfl⟩ := copy_number_preprocess_ok h
  exact ⟨g, hg, rfl, List.perm_insertionSort rowLe _, List.sorted_insertionSort rowLe _⟩

theorem rowLe_ne_lt {a b : WinRow} (h1 : rowLe a b) (h2 : winSortKey a ≠ winSortKey b) :
    rowLt a b := by
  unfold rowLe at h1
  unfold winSortKey at h2
  unfold rowLt
  rcases h1 with h | ⟨heq, hle⟩
  · exact Or.inl h
  · refine Or.inr ⟨heq, lt_of_le_of_ne hle ?_⟩
    intro hstart
    exact h2 (by rw [heq, hstart])

theorem sorted_distinct_strict {l : List WinRow} (hs : List.Sorted rowLe l)
    (hd : List.Pairwise (fun x y : WinRow => winSortKey x ≠ winSortKey y) l) :
    List.Sorted rowLt l :=
  List.Pairwise.imp (fun h => rowLe_ne_lt h.1 h.2) (List.Pairwise.and hs hd)

/-- C3 (amended): re-running `copy_number_preprocess` with the default
(canonical) column names on any permissible output returns a table with the
same evaluation kind and the same rows, again sorted by the same key — so the
result is identical up to the engine's unspecified relative order of rows
with equal (`chrKey`, `start`) sort keys — and it is byte-for-byte identical
(same column values and same row order) whenever the output's sort keys are
pairwise distinct. -/
theorem claim_C3 (f : CnFrame) (a b c d : String) (t t' : WinTable)
    (ht : winPreprocessRel f a b c d t)
    (ht' : winPreprocessRel (WinTable.toFrame t) "chr" "start" "end" "copy_number" t') :
    t'.isLazy = t.isLazy ∧ t'.rows.Perm t.rows ∧ List.Sorted rowLe t'.rows ∧
    (List.Pairwise (fun x y : WinRow => winSortKey x ≠ winSortKey y) t.rows → t' = t) := by
  obtain ⟨g, hg, hlz, hperm, hsort⟩ := ht
  obtain ⟨g', hg', hlz', hperm', hsort'⟩ := ht'
  have hmem : ∀ r ∈ t.rows, r.chrom ∈ CHROMOSOME_NAMES := by
    intro r hr
    have hrf := hperm.subset hr
    exact of_decide_eq_true (List.mem_filter.mp hrf).2
  have hicn : ∀ r ∈ t.rows, r.icn = roundHalfEven r.cn := by
    intro r hr
    have hrf := hperm.subset hr
    obtain ⟨a', _, ha⟩ := List.mem_map.mp (List.mem_filter.mp hrf).1
    rw [← ha]
    rfl
  have hcanonFrame : ∀ r ∈ (WinTable.toFrame t).rows, r.chrom ∈ CHROMOSOME_NAMES := by
    intro r hr
    obtain ⟨r0, hr0, rfl⟩ := List.mem_map.mp hr
    exact hmem r0 hr0
  have hstage : (WinTable.toFrame t).chrStage "chr" = .ok (WinTable.toFrame t) :=
    chrStage_canonical _ rfl hcanonFrame
  have hnamesList : (WinTable.toFrame t).names = ["chr", "start", "end", "copy_number"] := rfl
  have hnames : preprocessNamesWin (WinTable.toFrame t) "chr" "start" "end" "copy_number" =
      .ok (WinTable.toFrame t) := by
    unfold preprocessNamesWin
    rw [hstage]
    dsimp only
    rw [rename_id (WinTable.toFrame t) "start" (by rw [hnamesList]; decide)]
    dsimp only
    rw [if_neg (by decide : ¬("end" : String) = "start")]
    rw [rename_id (WinTable.toFrame t) "end" (by rw [hnamesList]; decide)]
    dsimp only
    exact rename_id (WinTable.toFrame t) "copy_number" (by rw [hnamesList]; decide)
  rw [hnames] at hg'
  have hg'eq : g' = WinTable.toFrame t := ((Except.ok.injEq _ _).mp hg').symm
  subst hg'eq
  have hfun : ∀ r ∈ t.rows,
      (icnizeRow ∘ (fun r : WinRow =>
        ({ chrom := r.chrom, start := r.start, stop := r.stop, cn := r.cn } : CnRow))) r
        = id r := by
    intro r hr
    have h := hicn r hr
    cases r
    simp only [Function.comp_apply, id_eq, icnizeRow]
    simp_all
  have hrows : ((WinTable.toFrame t).rows.map icnizeRow).filter
      (fun r => decide (r.chrom ∈ CHROMOSOME_NAMES)) = t.rows := by
    rw [show (WinTable.toFrame t).rows = t.rows.map (fun r =>
      ({ chrom := r.chrom, start := r.start, stop := r.stop, cn := r.cn } : CnRow)) from rfl]
    rw [List.map_map, List.map_congr_left hfun, List.map_id]
    exact List.filter_eq_self.mpr (fun r hr => decide_eq_true (hmem r hr))
  rw [hrows] at hperm'
  refine ⟨hlz', hperm', hsort', ?_⟩
  intro hdist
  have hdist' : List.Pairwise (fun x y : WinRow => winSortKey x ≠ winSortKey y) t'.rows :=
    (List.Perm.pairwise_iff (fun h => Ne.symm h) hperm').mpr hdist
  have hst : List.Sorted rowLt t.rows := sorted_distinct_strict hsort hdist
  have hst' : List.Sorted rowLt t'.rows := sorted_distinct_strict hsort' hdist'
  have hroweq : t'.rows = t.rows := List.eq_of_perm_of_sorted hperm' hst' hst
  have hlzeq : t'.isLazy = t.isLazy := hlz'
  cases t'
  cases t
  simp_all

/-- A frame with two rows sharing the (chr, start) sort key. -/
def c3f : CnFrame :=
  ⟨false, "chr", "start", "end", "copy_number", [⟨"1", 5, 10, 2⟩, ⟨"1", 5, 20, 3⟩]⟩

/-- One permissible normalisation of `c3f`. -/
def c3t : WinTable := ⟨false, [⟨"1", 5, 10, 2, 2⟩, ⟨"1", 5, 20, 3, 3⟩]⟩

/-- The other permissible row order for the same rows: the tied pair swapped. -/
def c3tswap : WinTable := ⟨false, [⟨"1", 5, 20, 3, 3⟩, ⟨"1", 5, 10, 2, 2⟩]⟩

/-- Counterexample to C3 as stated: `c3t` is a permissible output of
normalising `c3f`, and re-normalising `c3t` may permissibly return
`c3tswap ≠ c3t` — the two rows share the (`chrKey`, `start`) sort key and the
source calls `sort` without `maintain_order`, so the engine does not promise
the same row order back; byte-for-byte idempotence is not guaranteed by the
program on tables with duplicate sort keys. -/
theorem claim_C3_counterexample :
    winPreprocessRel c3f "chr" "start" "end" "copy_number" c3t ∧
    winPreprocessRel (WinTable.toFrame c3t) "chr" "start" "end" "copy_number" c3tswap ∧
    c3tswap ≠ c3t := by
  refine ⟨⟨c3f, by decide, rfl, by decide, by decide⟩,
    ⟨WinTable.toFrame c3t, by decide, rfl, by decide, by decide⟩, by decide⟩

/-- Input frame for the C3 witness: pairwise-distinct sort keys, unsorted. -/
def c3wf : CnFrame :=
  ⟨false, "chr", "start", "end", "copy_number", [⟨"2", 7, 9, 3⟩, ⟨"1", 5, 10, 2⟩]⟩

/-- The unique permissible normalisation of `c3wf`. -/
def c3wt : WinTable := ⟨false, [⟨"1", 5, 10, 2, 2⟩, ⟨"2", 7, 9, 3, 3⟩]⟩

/-- Witness for C3 (amended) at a table with pairwise-distinct sort keys,
every hypothesis discharged concretely, including the byte-for-byte case. -/
theorem claim_C3_witness :
    c3wt.isLazy = c3wt.isLazy ∧ c3wt.rows.Perm c3wt.rows ∧
    List.Sorted rowLe c3wt.rows ∧ c3wt = c3wt := by
  have h := claim_C3 c3wf "chr" "start" "end" "copy_number" c3wt c3wt
    ⟨c3wf, by decide, rfl, by decide, by decide⟩
    ⟨WinTable.toFrame c3wt, by decide, rfl, by decide, by decide⟩
  exact ⟨h.1, h.2.1, h.2.2.1, h.2.2.2 (by decide)⟩

/-! ### C5: chromosome-prefix stripping -/

theorem replFirst_drop {pat s : List Char} (h : isPre pat s = true) :
    replFirstAux pat [] s = s.drop pat.length := by
  cases s with
  | nil =>
    cases pat with
    | nil => rfl
    | cons a p' => simp [isPre] at h
  | cons c cs =>
    unfold replFirstAux
    rw [if_pos h]
    simp

theorem strReplFirst_drop {s pre : String} (h : strStarts s pre = true) :
    strReplFirst s pre "" = String.mk (s.toList.drop pre.toList.length) := by
  unfold strReplFirst
  unfold strStarts at h
  rw [show ("" : String).toList = [] from rfl, replFirst_drop h]

theorem chr_not_Chr {s : String} (h : strStarts s "chr" = true) : strStarts s "Chr" = false := by
  unfold strStarts at h ⊢
  rw [show ("chr" : String).toList = ['c', 'h', 'r'] from rfl] at h
  rw [show ("Chr" : String).toList = ['C', 'h', 'r'] from rfl]
  cases hs : s.toList with
  | nil => rw [hs] at h; simp [isPre] at h
  | cons c cs =>
    rw [hs] at h
    rw [show isPre ['c', 'h', 'r'] (c :: cs) =
      (decide (('c' : Char) = c) && isPre ['h', 'r'] cs) from rfl] at h
    rw [Bool.and_eq_true] at h
    have hc : ('c' : Char) = c := of_decide_eq_true h.1
    rw [show isPre ['C', 'h', 'r'] (c :: cs) =
      (decide (('C' : Char) = c) && isPre ['h', 'r'] cs) from rfl]
    rw [← hc]
    rw [show decide (('C' : Char) = 'c') = false from rfl]
    simp

theorem Chr_not_chr {s : String} (h : strStarts s "Chr" = true) : strStarts s "chr" = false := by
  unfold strStarts at h ⊢
  rw [show ("Chr" : String).toList = ['C', 'h', 'r'] from rfl] at h
  rw [show ("chr" : String).toList = ['c', 'h', 'r'] from rfl]
  cases hs : s.toList with
  | nil => rw [hs] at h; simp [isPre] at h
  | cons c cs =>
    rw [hs] at h
    rw [show isPre ['C', 'h', 'r'] (c :: cs) =
      (decide (('C' : Char) = c) && isPre ['h', 'r'] cs) from rfl] at h
    rw [Bool.and_eq_true] at h
    have hc : ('C' : Char) = c := of_decide_eq_true h.1
    rw [show isPre ['c', 'h', 'r'] (c :: cs) =
      (decide (('c' : Char) = c) && isPre ['h', 'r'] cs) from rfl]
    rw [← hc]
    rw [show decide (('c' : Char) = 'C') = false from rfl]
    simp

theorem firstUniques_cons {α : Type} [DecidableEq α] (seen : List α) (a : α) (l : List α) :
    firstUniques seen (a :: l) =
      if a ∈ seen then firstUniques seen l else a :: firstUniques (a :: seen) l := rfl

theorem mem_of_mem_firstUniques {α : Type} [DecidableEq α] {seen l : List α} {a : α}
    (h : a ∈ firstUniques seen l) : a ∈ l := by
  induction l generalizing seen with
  | nil => simp [firstUniques] at h
  | cons b l ih =>
    rw [firstUniques_cons] at h
    by_cases hb : b ∈ seen
    · rw [if_pos hb] at h
      exact List.mem_cons_of_mem _ (ih h)
    · rw [if_neg hb] at h
      rcases List.mem_cons.mp h with h | h
      · exact h ▸ List.mem_cons_self _ _
      · exact List.mem_cons_of_mem _ (ih h)

theorem mem_firstUniques_of_mem {α : Type} [DecidableEq α] {l : List α} {a : α}
    (hmem : a ∈ l) : ∀ {seen : List α}, a ∉ seen → a ∈ firstUniques seen l := by
  induction l with
  | nil => simp at hmem
  | cons b l ih =>
    intro seen hseen
    rw [firstUniques_cons]
    by_cases hab : a = b
    · subst hab
      rw [if_neg hseen]
      exact List.mem_cons_self _ _
    · have hal : a ∈ l := by
        rcases List.mem_cons.mp hmem with h | h
        · exact absurd h hab
        · exact h
      by_cases hb : b ∈ seen
      · rw [if_pos hb]
        exact ih hal hseen
      · rw [if_neg hb]
        exact List.mem_cons_of_mem _ (ih hal (by
          intro hc
          rcases List.mem_cons.mp hc with h | h
          · exact hab h
          · exact hseen h))

theorem all_firstUniques {α : Type} [DecidableEq α] (p : α → Bool) (seen l : List α)
    (h : ∀ a ∈ l, p a = true) : (firstUniques seen l).all p = true :=
  List.all_eq_true.mpr (fun a ha => h a (mem_of_mem_firstUniques ha))

theorem all_firstUniques_false {α : Type} [DecidableEq α] {p : α → Bool} {l : List α}
    (h : l.all p = false) : (firstUniques [] l).all p = false := by
  obtain ⟨x, hx, hpx⟩ := List.all_eq_false.mp h
  exact List.all_eq_false.mpr
    ⟨x, mem_firstUniques_of_mem hx (List.not_mem_nil x), hpx⟩

theorem stripChrVals_canonical (lz : Bool) (n2 n3 n4 : String) (rows : List CnRow)
    (pat : String) :
    CnFrame.stripChrVals ⟨lz, "chr", n2, n3, n4, rows⟩ "chr" pat =
      .ok ⟨lz, "chr", n2, n3, n4,
        rows.map (fun r => { r with chrom := strReplFirst r.chrom pat "" })⟩ := by
  unfold CnFrame.stripChrVals
  rw [if_pos rfl]

/-- C5: on a frame whose chromosome column already has the canonical name,
the chromosome-normalisation stage strips the exact three-character prefix
from every row when all labels start with "chr", likewise when all start with
"Chr", and leaves every label untouched when neither prefix is shared by all
rows (including any mixed input). -/
theorem claim_C5 :
    (∀ (lz : Bool) (rows : List CnRow),
      (∀ r ∈ rows, strStarts r.chrom "chr" = true) →
      CnFrame.chrStage ⟨lz, "chr", "start", "end", "copy_number", rows⟩ "chr" =
        .ok ⟨lz, "chr", "start", "end", "copy_number",
          rows.map (fun r => { r with chrom := String.mk (r.chrom.toList.drop 3) })⟩) ∧
    (∀ (lz : Bool) (rows : List CnRow),
      (∀ r ∈ rows, strStarts r.chrom "Chr" = true) →
      CnFrame.chrStage ⟨lz, "chr", "start", "end", "copy_number", rows⟩ "chr" =
        .ok ⟨lz, "chr", "start", "end", "copy_number",
          rows.map (fun r => { r with chrom := String.mk (r.chrom.toList.drop 3) })⟩) ∧
    (∀ (lz : Bool) (rows : List CnRow),
      (rows.map (fun r => r.chrom)).all (fun c => strStarts c "chr") = false →
      (rows.map (fun r => r.chrom)).all (fun c => strStarts c "Chr") = false →
      CnFrame.chrStage ⟨lz, "chr", "start", "end", "copy_number", rows⟩ "chr" =
        .ok ⟨lz, "chr", "start", "end", "copy_number", rows⟩) := by
  have hmemchr : ∀ rows : List CnRow,
      "chr" ∈ CnFrame.names ⟨false, "chr", "start", "end", "copy_number", rows⟩ :=
    fun _ => List.mem_cons_self _ _
  have hren : ∀ (lz : Bool) (rows : List CnRow),
      CnFrame.rename ⟨lz, "chr", "start", "end", "copy_number", rows⟩ "chr" "chr" =
        .ok ⟨lz, "chr", "start", "end", "copy_number", rows⟩ :=
    fun lz rows => rename_id ⟨lz, "chr", "start", "end", "copy_number", rows⟩ "chr"
      (List.mem_cons_self _ _)
  refine ⟨?_, ?_, ?_⟩
  · -- all labels start with "chr"
    intro lz rows hall
    have hdrop : rows.map (fun r => { r with chrom := strReplFirst r.chrom "chr" "" }) =
        rows.map (fun r => { r with chrom := String.mk (r.chrom.toList.drop 3) }) :=
      List.map_congr_left (fun r hr => by rw [strReplFirst_drop (hall r hr)]; exact rfl)
    have hc1 : (firstUniques [] (rows.map (fun r => r.chrom))).all
        (fun c => strStarts c "chr") = true :=
      all_firstUniques _ _ _ (by
        intro a ha
        obtain ⟨r, hr, rfl⟩ := List.mem_map.mp ha
        exact hall r hr)
    cases hrows : rows with
    | nil =>
      subst hrows
      unfold CnFrame.chrStage
      dsimp only
      rw [show firstUniques ([] : List String)
        (List.map (fun r : CnRow => r.chrom) []) = [] from rfl]
      simp only [List.all_nil, if_true]
      rw [stripChrVals_canonical]
      dsimp only
      rw [hren]
      dsimp only
      rw [stripChrVals_canonical]
      dsimp only
      rw [hren]
      rfl
    | cons r0 rs =>
      have hc2 : (firstUniques [] (rows.map (fun r => r.chrom))).all
          (fun c => strStarts c "Chr") = false := by
        apply all_firstUniques_false
        apply List.all_eq_false.mpr
        refine ⟨r0.chrom, ?_, ?_⟩
        · rw [hrows]; exact List.mem_map.mpr ⟨r0, List.mem_cons_self _ _, rfl⟩
        · rw [chr_not_Chr (hall r0 (hrows ▸ List.mem_cons_self _ _))]; simp
      rw [← hrows]
      unfold CnFrame.chrStage
      dsimp only
      rw [hc1, hc2]
      simp only [if_true, Bool.false_eq_true, if_false]
      rw [stripChrVals_canonical]
      dsimp only
      rw [hren]
      dsimp only
      rw [hren, hdrop]
  · -- all labels start with "Chr"
    intro lz rows hall
    have hdrop : rows.map (fun r => { r with chrom := strReplFirst r.chrom "Chr" "" }) =
        rows.map (fun r => { r with chrom := String.mk (r.chrom.toList.drop 3) }) :=
      List.map_congr_left (fun r hr => by rw [strReplFirst_drop (hall r hr)]; exact rfl)
    have hc2 : (firstUniques [] (rows.map (fun r => r.chrom))).all
        (fun c => strStarts c "Chr") = true :=
      all_firstUniques _ _ _ (by
        intro a ha
        obtain ⟨r, hr, rfl⟩ := List.mem_map.mp ha
        exact hall r hr)
    cases hrows : rows with
    | nil =>
      subst hrows
      unfold CnFrame.chrStage
      dsimp only
      rw [show firstUniques ([] : List String)
        (List.map (fun r : CnRow => r.chrom) []) = [] from rfl]
      simp only [List.all_nil, if_true]
      rw [stripChrVals_canonical]
      dsimp only
      rw [hren]
      dsimp only
      rw [stripChrVals_canonical]
      dsimp only
      rw [hren]
      rfl
    | cons r0 rs =>
      have hc1 : (firstUniques [] (rows.map (fun r => r.chrom))).all
          (fun c => strStarts c "chr") = false := by
        apply all_firstUniques_false
        apply List.all_eq_false.mpr
        refine ⟨r0.chrom, ?_, ?_⟩
        · rw [hrows]; exact List.mem_map.mpr ⟨r0, List.mem_cons_self _ _, rfl⟩
        · rw [Chr_not_chr (hall r0 (hrows ▸ List.mem_cons_self _ _))]; simp
      rw [← hrows]
      unfold CnFrame.chrStage
      dsimp only
      rw [hc1, hc2]
      simp only [Bool.false_eq_true, if_false, if_true]
      rw [stripChrVals_canonical]
      dsimp only
      rw [hren, hdrop]
  · -- neither prefix is shared by all rows: values untouched
    intro lz rows h1 h2
    have hc1 := all_firstUniques_false h1
    have hc2 := all_firstUniques_false h2
    unfold CnFrame.chrStage
    dsimp only
    rw [hc1, hc2]
    simp only [Bool.false_eq_true, if_false]
    exact hren lz rows

/-- Witness for C5: stripping `["chr1", "chr2"]`, stripping `["Chr1", "ChrX"]`,
and leaving mixed `["chr1", "2"]` untouched. -/
theorem claim_C5_witness :
    CnFrame.chrStage ⟨false, "chr", "start", "end", "copy_number",
        [⟨"chr1", 0, 1, 2⟩, ⟨"chr2", 1, 2, 2⟩]⟩ "chr" =
      .ok ⟨false, "chr", "start", "end", "copy_number",
        [⟨"1", 0, 1, 2⟩, ⟨"2", 1, 2, 2⟩]⟩ ∧
    CnFrame.chrStage ⟨false, "chr", "start", "end", "copy_number",
        [⟨"Chr1", 0, 1, 2⟩, ⟨"ChrX", 1, 2, 2⟩]⟩ "chr" =
      .ok ⟨false, "chr", "start", "end", "copy_number",
        [⟨"1", 0, 1, 2⟩, ⟨"X", 1, 2, 2⟩]⟩ ∧
    CnFrame.chrStage ⟨false, "chr", "start", "end", "copy_number",
        [⟨"chr1", 0, 1, 2⟩, ⟨"2", 1, 2, 2⟩]⟩ "chr" =
      .ok ⟨false, "chr", "start", "end", "copy_number",
        [⟨"chr1", 0, 1, 2⟩, ⟨"2", 1, 2, 2⟩]⟩ := by
  refine ⟨?_, ?_, ?_⟩
  · exact claim_C5.1 false [⟨"chr1", 0, 1, 2⟩, ⟨"chr2", 1, 2, 2⟩] (by decide)
  · exact claim_C5.2.1 false [⟨"Chr1", 0, 1, 2⟩, ⟨"ChrX", 1, 2, 2⟩] (by decide)
  · exact claim_C5.2.2 false [⟨"chr1", 0, 1, 2⟩, ⟨"2", 1, 2, 2⟩] (by decide) (by decide)

/-! ### C7: region-consistency checks -/

theorem map_eq_iff_get {α β : Type} (f : α → β) (l1 l2 : List α) :
    l1.map f = l2.map f ↔ (l1.length = l2.length ∧
      ∀ (i : ℕ) (h1 : i < l1.length) (h2 : i < l2.length),
        f (l1.get ⟨i, h1⟩) = f (l2.get ⟨i, h2⟩)) := by
  constructor
  · intro h
    have hlen : l1.length = l2.length := by
      have := congrArg List.length h
      simpa using this
    refine ⟨hlen, ?_⟩
    intro i h1 h2
    have key := List.getElem_of_eq h (i := i) (by simpa using h1)
    rw [List.getElem_map, List.getElem_map] at key
    simpa [List.get_eq_getElem] using key
  · rintro ⟨hlen, hpt⟩
    apply List.ext_getElem (by simpa using hlen)
    intro i h1 h2
    rw [List.getElem_map, List.getElem_map]
    have := hpt i (by simpa using h1) (by simpa using h2)
    simpa [List.get_eq_getElem] using this

/-- Concrete two-window table for the C7 examples. -/
def w7a : WinTable := ⟨false, [⟨"1", 0, 10, 2, 2⟩, ⟨"1", 11, 20, 2, 2⟩]⟩

/-- `w7a` with its two rows swapped. -/
def w7b : WinTable := ⟨false, [⟨"1", 11, 20, 2, 2⟩, ⟨"1", 0, 10, 2, 2⟩]⟩

/-- `w7a` with its second row dropped. -/
def w7c : WinTable := ⟨false, [⟨"1", 0, 10, 2, 2⟩]⟩

/-- C7: both region-consistency checks hold exactly when the region-key
columns agree row for row — same count, same order, same values — and on the
concrete examples reordering or dropping one row makes the check false. -/
theorem claim_C7 :
    (∀ x y : WinTable, window_region_consistency_check x y = true ↔
      (x.rows.length = y.rows.length ∧
       ∀ (i : ℕ) (hx : i < x.rows.length) (hy : i < y.rows.length),
         winRegionKey (x.rows.get ⟨i, hx⟩) = winRegionKey (y.rows.get ⟨i, hy⟩))) ∧
    (∀ x y : ChrTable, chromosome_region_consistency_check x y = true ↔
      (x.rows.length = y.rows.length ∧
       ∀ (i : ℕ) (hx : i < x.rows.length) (hy : i < y.rows.length),
         (x.rows.get ⟨i, hx⟩).chrom = (y.rows.get ⟨i, hy⟩).chrom)) ∧
    window_region_consistency_check w7a w7b = false ∧
    window_region_consistency_check w7a w7c = false := by
  refine ⟨?_, ?_, by decide, by decide⟩
  · intro x y
    unfold window_region_consistency_check
    rw [decide_eq_true_eq]
    exact map_eq_iff_get winRegionKey x.rows y.rows
  · intro x y
    unfold chromosome_region_consistency_check
    rw [decide_eq_true_eq]
    exact map_eq_iff_get (fun r => r.chrom) x.rows y.rows

/-- Witness for C7: both directions of the characterisation at concrete
tables. -/
theorem claim_C7_witness :
    window_region_consistency_check w7a w7a = true ∧
    chromosome_region_consistency_check ⟨false, [⟨"1", 2, 2⟩]⟩ ⟨false, [⟨"1", 3, 3⟩]⟩ = true :=
  ⟨(claim_C7.1 w7a w7a).mpr ⟨rfl, fun _ _ _ => rfl⟩,
   (claim_C7.2.1 ⟨false, [⟨"1", 2, 2⟩]⟩ ⟨false, [⟨"1", 3, 3⟩]⟩).mpr
     ⟨rfl, by decide⟩⟩

/-! ### C10: lowercase-prefix input with a non-canonical chromosome column name -/

theorem chrStage_lower_nonCanon (f : CnFrame) (chr_col : String)
    (hname : f.chrName = chr_col) (hnodup : f.names.Nodup) (hfree : "chr" ∉ f.names)
    (hall : ∀ r ∈ f.rows, strStarts r.chrom "chr" = true) :
    f.chrStage chr_col = .error (.columnNotFound chr_col) := by
  obtain ⟨lz, cname, sname, ename, nname, rows⟩ := f
  dsimp only at hname hall
  subst cname
  rw [CnFrame.names] at hnodup hfree
  dsimp only at hnodup hfree
  have hne : chr_col ≠ "chr" := fun h => hfree (h ▸ List.mem_cons_self _ _)
  have hnmem : chr_col ∉ ([sname, ename, nname] : List String) := (List.nodup_cons.mp hnodup).1
  have hfree' : "chr" ∉ ([sname, ename, nname] : List String) := fun h =>
    hfree (List.mem_cons_of_mem _ h)
  have hc1 : (firstUniques [] (rows.map (fun r => r.chrom))).all
      (fun c => strStarts c "chr") = true :=
    all_firstUniques _ _ _ (by
      intro a ha
      obtain ⟨r, hr, rfl⟩ := List.mem_map.mp ha
      exact hall r hr)
  have hstrip : CnFrame.stripChrVals ⟨lz, chr_col, sname, ename, nname, rows⟩ chr_col "chr" =
      .ok ⟨lz, chr_col, sname, ename, nname,
        rows.map (fun r => { r with chrom := strReplFirst r.chrom "chr" "" })⟩ := by
    unfold CnFrame.stripChrVals
    rw [if_pos rfl]
  have hren1 : ∀ rows' : List CnRow,
      CnFrame.rename ⟨lz, chr_col, sname, ename, nname, rows'⟩ chr_col "chr" =
        .ok ⟨lz, "chr", sname, ename, nname, rows'⟩ := by
    intro rows'
    unfold CnFrame.rename
    rw [CnFrame.names]
    dsimp only
    rw [if_pos (List.mem_cons_self _ _), if_neg hne,
      if_neg (by
        intro hc
        rcases List.mem_cons.mp hc with h | h
        · exact hne h.symm
        · exact hfree' h),
      if_pos rfl]
  have hren2 : ∀ rows' : List CnRow,
      CnFrame.rename ⟨lz, "chr", sname, ename, nname, rows'⟩ chr_col "chr" =
        .error (.columnNotFound chr_col) := by
    intro rows'
    unfold CnFrame.rename
    rw [CnFrame.names]
    dsimp only
    rw [if_neg (by
      intro hc
      rcases List.mem_cons.mp hc with h | h
      · exact hne h
      · exact hnmem h)]
  have hstrip2 : ∀ rows' : List CnRow,
      CnFrame.stripChrVals ⟨lz, "chr", sname, ename, nname, rows'⟩ chr_col "Chr" =
        .error (.columnNotFound chr_col) := by
    intro rows'
    unfold CnFrame.stripChrVals
    rw [if_neg (fun h => hne h.symm), CnFrame.names]
    dsimp only
    rw [if_neg (by
      intro hc
      rcases List.mem_cons.mp hc with h | h
      · exact hne h
      · exact hnmem h)]
  cases hrows : rows with
  | nil =>
    subst hrows
    unfold CnFrame.chrStage
    dsimp only
    rw [show firstUniques ([] : List String)
      (List.map (fun r : CnRow => r.chrom) []) = [] from rfl]
    simp only [List.all_nil, if_true]
    rw [hstrip]
    dsimp only
    rw [hren1]
    dsimp only
    rw [hstrip2]
  | cons r0 rs =>
    have hc2 : (firstUniques [] (rows.map (fun r => r.chrom))).all
        (fun c => strStarts c "Chr") = false := by
      apply all_firstUniques_false
      apply List.all_eq_false.mpr
      refine ⟨r0.chrom, ?_, ?_⟩
      · rw [hrows]; exact List.mem_map.mpr ⟨r0, List.mem_cons_self _ _, rfl⟩
      · rw [chr_not_Chr (hall r0 (hrows ▸ List.mem_cons_self _ _))]; simp
    rw [← hrows]
    unfold CnFrame.chrStage
    dsimp only
    rw [hc1, hc2]
    simp only [if_true, Bool.false_eq_true, if_false]
    rw [hstrip]
    dsimp only
    rw [hren1]
    dsimp only
    rw [hren2]

theorem chrStageCnv_lower_nonCanon (f : CnvFrame) (chr_col : String)
    (hname : f.chrName = chr_col) (hnodup : f.names.Nodup) (hfree : "chr" ∉ f.names)
    (hall : ∀ r ∈ f.rows, strStarts r.chrom "chr" = true) :
    f.chrStage chr_col = .error (.columnNotFound chr_col) := by
  obtain ⟨lz, cname, sname, ename, nname, rows⟩ := f
  dsimp only at hname hall
  subst cname
  rw [CnvFrame.names] at hnodup hfree
  dsimp only at hnodup hfree
  have hne : chr_col ≠ "chr" := fun h => hfree (h ▸ List.mem_cons_self _ _)
  have hnmem : chr_col ∉ ([sname, ename, nname] : List String) := (List.nodup_cons.mp hnodup).1
  have hfree' : "chr" ∉ ([sname, ename, nname] : List String) := fun h =>
    hfree (List.mem_cons_of_mem _ h)
  have hc1 : (firstUniques [] (rows.map (fun r => r.chrom))).all
      (fun c => strStarts c "chr") = true :=
    all_firstUniques _ _ _ (by
      intro a ha
      obtain ⟨r, hr, rfl⟩ := List.mem_map.mp ha
      exact hall r hr)
  have hstrip : CnvFrame.stripChrVals ⟨lz, chr_col, sname, ename, nname, rows⟩ chr_col "chr" =
      .ok ⟨lz, chr_col, sname, ename, nname,
        rows.map (fun r => { r with chrom := strReplFirst r.chrom "chr" "" })⟩ := by
    unfold CnvFrame.stripChrVals
    rw [if_pos rfl]
  have hren1 : ∀ rows' : List CnvRow,
      CnvFrame.rename ⟨lz, chr_col, sname, ename, nname, rows'⟩ chr_col "chr" =
        .ok ⟨lz, "chr", sname, ename, nname, rows'⟩ := by
    intro rows'
    unfold CnvFrame.rename
    rw [CnvFrame.names]
    dsimp only
    rw [if_pos (List.mem_cons_self _ _), if_neg hne,
      if_neg (by
        intro hc
        rcases List.mem_cons.mp hc with h | h
        · exact hne h.symm
        · exact hfree' h),
      if_pos rfl]
  have hren2 : ∀ rows' : List CnvRow,
      CnvFrame.rename ⟨lz, "chr", sname, ename, nname, rows'⟩ chr_col "chr" =
        .error (.columnNotFound chr_col) := by
    intro rows'
    unfold CnvFrame.rename
    rw [CnvFrame.names]
    dsimp only
    rw [if_neg (by
      intro hc
      rcases List.mem_cons.mp hc with h | h
      · exact hne h
      · exact hnmem h)]
  have hstrip2 : ∀ rows' : List CnvRow,
      CnvFrame.stripChrVals ⟨lz, "chr", sname, ename, nname, rows'⟩ chr_col "Chr" =
        .error (.columnNotFound chr_col) := by
    intro rows'
    unfold CnvFrame.stripChrVals
    rw [if_neg (fun h => hne h.symm), CnvFrame.names]
    dsimp only
    rw [if_neg (by
      intro hc
      rcases List.mem_cons.mp hc with h | h
      · exact hne h
      · exact hnmem h)]
  cases hrows : rows with
  | nil =>
    subst hrows
    unfold CnvFrame.chrStage
    dsimp only
    rw [show firstUniques ([] : List String)
      (List.map (fun r : CnvRow => r.chrom) []) = [] from rfl]
    simp only [List.all_nil, if_true]
    rw [hstrip]
    dsimp only
    rw [hren1]
    dsimp only
    rw [hstrip2]
  | cons r0 rs =>
    have hc2 : (firstUniques [] (rows.map (fun r => r.chrom))).all
        (fun c => strStarts c "Chr") = false := by
      apply all_firstUniques_false
      apply List.all_eq_false.mpr
      refine ⟨r0.chrom, ?_, ?_⟩
      · rw [hrows]; exact List.mem_map.mpr ⟨r0, List.mem_cons_self _ _, rfl⟩
      · rw [chr_not_Chr (hall r0 (hrows ▸ List.mem_cons_self _ _))]; simp
    rw [← hrows]
    unfold CnvFrame.chrStage
    dsimp only
    rw [hc1, hc2]
    simp only [if_true, Bool.false_eq_true, if_false]
    rw [hstrip]
    dsimp only
    rw [hren1]
    dsimp only
    rw [hren2]

/-- C10: on any input whose chromosome labels all start with the lowercase
prefix and whose chromosome column has a non-canonical name, both
`copy_number_preprocess` and `cnv_preprocess` fail with a missing-column
error for that name: the lowercase branch has already renamed the column to
`"chr"` and the trailing `else` branch renames the stale name a second time. -/
theorem claim_C10 :
    (∀ (f : CnFrame) (chr_col start_col end_col cn_col : String),
      f.chrName = chr_col → f.names.Nodup → "chr" ∉ f.names →
      (∀ r ∈ f.rows, strStarts r.chrom "chr" = true) →
      copy_number_preprocess f chr_col start_col end_col cn_col =
        .error (.columnNotFound chr_col)) ∧
    (∀ (f : CnvFrame) (chr_col start_col end_col cnv_type_col gain_value loss_value : String),
      f.chrName = chr_col → f.names.Nodup → "chr" ∉ f.names →
      (∀ r ∈ f.rows, strStarts r.chrom "chr" = true) →
      cnv_preprocess f chr_col start_col end_col cnv_type_col gain_value loss_value =
        .error (.columnNotFound chr_col)) := by
  constructor
  · intro f chr_col s e n h1 h2 h3 h4
    unfold copy_number_preprocess preprocessNamesWin
    rw [chrStage_lower_nonCanon f chr_col h1 h2 h3 h4]
  · intro f chr_col s e n gv lv h1 h2 h3 h4
    unfold cnv_preprocess preprocessNamesCnv
    rw [chrStageCnv_lower_nonCanon f chr_col h1 h2 h3 h4]

/-- Witness for C10 at concrete frames with the column named `"chromosome"`
and labels `["chr1", "chr2"]`. -/
theorem claim_C10_witness :
    copy_number_preprocess ⟨false, "chromosome", "start", "end", "copy_number",
        [⟨"chr1", 0, 1, 2⟩, ⟨"chr2", 1, 2, 2⟩]⟩ "chromosome" "start" "end" "copy_number" =
      .error (.columnNotFound "chromosome") ∧
    cnv_preprocess ⟨false, "chromosome", "start", "end", "cnv_type",
        [⟨"chr1", 0, 1, "dup"⟩]⟩ "chromosome" "start" "end" "cnv_type" "dup" "del" =
      .error (.columnNotFound "chromosome") :=
  ⟨claim_C10.1 ⟨false, "chromosome", "start", "end", "copy_number",
      [⟨"chr1", 0, 1, 2⟩, ⟨"chr2", 1, 2, 2⟩]⟩ "chromosome" "start" "end" "copy_number"
      rfl (by decide) (by decide) (by decide),
   claim_C10.2 ⟨false, "chromosome", "start", "end", "cnv_type",
      [⟨"chr1", 0, 1, "dup"⟩]⟩ "chromosome" "start" "end" "cnv_type" "dup" "del"
      rfl (by decide) (by decide) (by decide)⟩

/-! ### C6: N-way mean of chromosome-level data -/

/-- A chromosome-level table with one chromosome, copy number 2. -/
def c6x : ChrTable := ⟨false, [⟨"1", 2, 2⟩]⟩

/-- A chromosome-level table with the same region and copy number 4. -/
def c6y : ChrTable := ⟨false, [⟨"1", 4, 4⟩]⟩

/-- C6 (evaluation at the failing input): two region-consistent
chromosome-level copy-number data; their N-way mean does not return a mean
table but fails with the missing-column error on `"start"`, because the
`CopyNumberChromosome` constructor calls `copy_number_preprocess` with
`start_col=None` while the final sort unconditionally references
`pl.col("start")`. -/
theorem claim_C6 :
    chromosome_region_consistency_check c6x c6y = true ∧
    chromosome_mean [c6x, c6y] = .error (.columnNotFound "start") :=
  ⟨by decide, by rfl⟩

/-! ### C8: eager/lazy kind preservation -/

theorem preprocess_nostart_never_ok (f : ChrFrame) (a b : String) (t : ChrTable) :
    copy_number_preprocess_nostart f a b ≠ .ok t := by
  unfold copy_number_preprocess_nostart
  cases h1 : f.chrStage a with
  | error e => simp
  | ok f2 =>
    dsimp only
    cases h2 : f2.rename b "copy_number" with
    | error e => simp
    | ok f3 =>
      dsimp only
      rw [if_neg (by decide : ¬(("start" : String) ∈
        (["chr", "copy_number", "integer_copy_number"] : List String)))]
      simp

theorem match_never_ok {x : Except PErr ChrTable} (k : ChrTable → ChrTable)
    (hx : ∀ d, x ≠ .ok d) (u : ChrTable) :
    (match x with
      | .error e => (.error e : Except PErr ChrTable)
      | .ok d => .ok (k d)) ≠ .ok u := by
  cases x with
  | error e => simp
  | ok d => exact absurd rfl (hx d)

theorem window_mean_ok_eager (ts : List WinTable) (u : WinTable)
    (h : window_mean ts = .ok u) : u.isLazy = false := by
  unfold window_mean at h
  cases hb : firstBadPair window_region_consistency_check ts with
  | some i => rw [hb] at h; simp at h
  | none =>
    rw [hb] at h
    dsimp only at h
    cases ts with
    | nil => simp at h
    | cons t0 rest =>
      dsimp only at h
      obtain ⟨g, _, rfl⟩ := copy_number_preprocess_ok h
      rfl

theorem chromosome_mean_never_ok (ts : List ChrTable) (u : ChrTable) :
    chromosome_mean ts ≠ .ok u := by
  unfold chromosome_mean
  cases hb : firstBadPair chromosome_region_consistency_check ts with
  | some i => simp
  | none =>
    cases ts with
    | nil => simp
    | cons t0 rest =>
      dsimp only
      exact match_never_ok _ (fun d => preprocess_nostart_never_ok _ _ _ d) u

/-- C8 (amended): both preprocess pipelines and the per-chromosome aggregate
preserve the evaluation kind of their input, but the N-way mean does not:
whenever the window-level mean succeeds it returns an eager table regardless
of the inputs' kind, and the chromosome-level mean never returns a table at
all. -/
theorem claim_C8_amended :
    (∀ (f : CnFrame) (a b c d : String) (t : WinTable),
      copy_number_preprocess f a b c d = .ok t → t.isLazy = f.isLazy) ∧
    (∀ (f : CnvFrame) (a b c d gv lv : String) (t : CnvTable),
      cnv_preprocess f a b c d gv lv = .ok t → t.isLazy = f.isLazy) ∧
    (∀ t : WinTable, (chromosome_copy_number t).isLazy = t.isLazy) ∧
    (∀ (ts : List WinTable) (u : WinTable), window_mean ts = .ok u → u.isLazy = false) ∧
    (∀ (ts : List ChrTable) (u : ChrTable), chromosome_mean ts ≠ .ok u) := by
  refine ⟨?_, ?_, fun t => rfl, window_mean_ok_eager, chromosome_mean_never_ok⟩
  · intro f a b c d t h
    obtain ⟨g, _, rfl⟩ := copy_number_preprocess_ok h
    rfl
  · intro f a b c d gv lv t h
    obtain ⟨rows, rfl⟩ := cnv_preprocess_ok h
    rfl

/-- Witness for C8 (amended): preprocessing a lazily-described frame keeps the
lazy kind. -/
theorem claim_C8_witness :
    (⟨true, [⟨"1", 3, 6, 1, 1⟩]⟩ : WinTable).isLazy =
      (⟨true, "chr", "start", "end", "copy_number", [⟨"1", 3, 6, 1⟩]⟩ : CnFrame).isLazy :=
  claim_C8_amended.1 ⟨true, "chr", "start", "end", "copy_number", [⟨"1", 3, 6, 1⟩]⟩
    "chr" "start" "end" "copy_number" ⟨true, [⟨"1", 3, 6, 1, 1⟩]⟩ (by decide)

/-- A lazily-described window table fed to the N-way mean. -/
def c8t : WinTable := ⟨true, [⟨"1", 0, 10, 2, 2⟩]⟩

/-- Counterexample to C8 as stated: the N-way window mean of a lazy table
succeeds but returns an eager table (`isLazy = false`), so `mean` does not
preserve the evaluation kind. -/
theorem claim_C8_counterexample :
    c8t.isLazy = true ∧
    window_mean [c8t] = .ok ⟨false, [⟨"1", 0, 10, 2/1, roundHalfEven (2/1)⟩]⟩ ∧
    (2 : ℚ)/1 = 2 ∧ roundHalfEven ((2 : ℚ)/1) = 2 := by
  refine ⟨rfl, by rfl, by norm_num, ?_⟩
  rw [show (2 : ℚ)/1 = 2 by norm_num]
  decide

/-! ### C9: difference standard deviation -/

/-- C9 (amended): `difference_std` inner-joins on the window region key and
computes the `ddof = 1` sample statistic of the differences; with two or more
matched rows the (squared) value is `Σ (d - mean)² / (n - 1)`, and with at
most one matched row the polars sample standard deviation is null, so the
`float(...)` conversion fails with a `TypeError` instead of returning a
number. -/
theorem claim_C9_amended (t p : WinTable) :
    (2 ≤ (window_matched_diffs t p).length →
      window_difference_std_sq t p = .ok
        ((((window_matched_diffs t p).map
          (fun d => (d - listMeanQ (window_matched_diffs t p)) ^ 2)).sum) /
          (((window_matched_diffs t p).length : ℚ) - 1))) ∧
    ((window_matched_diffs t p).length ≤ 1 →
      window_difference_std_sq t p =
        .error (.typeError "float() argument must be a string or a real number, not NoneType")) := by
  constructor
  · intro h2
    unfold window_difference_std_sq sampleVarQ
    rw [if_neg (by omega)]
  · intro h1
    unfold window_difference_std_sq sampleVarQ
    rw [if_pos h1]

/-- Single-row reference table for the C9 counterexample. -/
def c9a : WinTable := ⟨false, [⟨"1", 0, 10, 2, 2⟩]⟩

/-- Single-row prediction table, matching `c9a`'s region, copy number 2. -/
def c9b : WinTable := ⟨false, [⟨"1", 0, 10, 2, 2⟩]⟩

/-- Counterexample to C9 as stated: with two matched single-row tables whose
copy numbers are both 2, the single matched difference is 0, yet
`difference_std` returns neither NaN nor 0 — `Series.std` is null with one
observation and `float(None)` raises a `TypeError`. -/
theorem claim_C9_counterexample :
    window_matched_diffs c9a c9b = [2 - 2] ∧ (2 : ℚ) - 2 = 0 ∧
    window_difference_std_sq c9a c9b =
      .error (.typeError "float() argument must be a string or a real number, not NoneType") :=
  ⟨by rfl, by norm_num, by rfl⟩

/-- Two-row reference table for the C9 witness. -/
def c9c : WinTable := ⟨false, [⟨"1", 0, 10, 2, 2⟩, ⟨"1", 11, 20, 1, 1⟩]⟩

/-- Two-row prediction table with both regions matching `c9c`. -/
def c9d : WinTable := ⟨false, [⟨"1", 0, 10, 3, 3⟩, ⟨"1", 11, 20, 3, 3⟩]⟩

/-- Witness for C9 (amended) at two matched rows. -/
theorem claim_C9_witness :
    window_difference_std_sq c9c c9d = .ok
      ((((window_matched_diffs c9c c9d).map
        (fun d => (d - listMeanQ (window_matched_diffs c9c c9d)) ^ 2)).sum) /
        (((window_matched_diffs c9c c9d).length : ℚ) - 1)) :=
  (claim_C9_amended c9c c9d).1 (by decide)

end CnvTools
